import Mathlib

/-!
Shallow embedding of the Carver repository's loss, metric and config code
(`src/runners/losses/pigan_loss.py`, `src/metrics/kid.py`,
`src/metrics/gan_snapshot_multiview.py`, `src/configs/stylesdf_config.py`)
together with theorems settling the frozen claims about it.

Tensors are modelled as lists (batch dimension) of rational entries; the
deep-learning framework's autodiff is modelled by its linearity law (the
gradient of a scalar multiple of the summed scores is the scalar multiple of
the gradient); the distributed gather primitives are abstracted as inputs.
-/

namespace Carver

/-- Python `int()` truncation toward zero on a rational. -/
def pyInt (q : ℚ) : ℤ :=
  if 0 ≤ q then ⌊q⌋ else ⌈q⌉

/-- Sum of squares of a list of rationals (the flattened `(C, H, W)` axes of one
sample's gradient), i.e. `grad.square().sum((1, 2, 3))` for one sample. -/
def sumSq (g : List ℚ) : ℚ :=
  (g.map (fun x => x * x)).sum

/-- Model of `torch.cuda.amp.GradScaler`: an enabled flag and a scale factor.
When AMP is disabled the scaler is the identity (cf. the source comment
"If disable amp, the scaler will always be 1"). -/
structure AmpScaler where
  enabled : Bool
  scale_factor : ℚ

/-- `GradScaler.scale`: multiplies by the scale factor when enabled,
returns the input unchanged when disabled. -/
def AmpScaler.scale (s : AmpScaler) (x : ℚ) : ℚ :=
  if s.enabled then s.scale_factor * x else x

/-- `GradScaler.is_enabled`. -/
def AmpScaler.is_enabled (s : AmpScaler) : Bool :=
  s.enabled

/-- `GradScaler.get_scale`: the scale factor when enabled, `1.0` when disabled. -/
def AmpScaler.get_scale (s : AmpScaler) : ℚ :=
  if s.enabled then s.scale_factor else 1

/-- `PiGANLoss.compute_grad_penalty` (src/runners/losses/pigan_loss.py:159-177).

`grads` is the per-sample gradient of the UNSCALED summed scores with respect
to each sample's image, flattened over the channel/height/width axes; the
source first applies `amp_scaler.scale` to the scores, so by linearity of
differentiation `torch.autograd.grad` returns that gradient with every entry
passed through `amp_scaler.scale`.  The scaled gradient is divided back by
`amp_scaler.get_scale()` when the scaler is enabled, and the penalty is the
per-sample sum of squares `image_grad.square().sum((1, 2, 3))`. -/
def compute_grad_penalty (grads : List (List ℚ)) (amp : AmpScaler) : List ℚ :=
  let image_grad := grads.map (fun g => g.map (fun x => amp.scale x))
  let image_grad :=
    if amp.is_enabled then
      image_grad.map (fun g => g.map (fun x => x / amp.get_scale))
    else image_grad
  image_grad.map sumSq

/-- C1: the claim, as stated, says each sample's penalty equals the EUCLIDEAN
NORM of that sample's gradient.  The source computes the SQUARED norm: on the
single-sample gradient `[2]` (one pixel, gradient value 2) the code returns
`4`, while the Euclidean norm of `[2]` is `2`; indeed `4` fails the defining
property of the norm (`p ≥ 0 ∧ p ^ 2 = sumSq [2]`) since `4 ^ 2 = 16 ≠ 4`. -/
theorem compute_grad_penalty_not_euclidean_norm :
    compute_grad_penalty [[(2 : ℚ)]] ⟨false, 1⟩ = [4] ∧
      ¬ (0 ≤ (4 : ℚ) ∧ (4 : ℚ) ^ 2 = sumSq [(2 : ℚ)]) := by
  constructor
  · norm_num [compute_grad_penalty, sumSq, AmpScaler.scale, AmpScaler.is_enabled]
  · intro h
    have := h.2
    norm_num [sumSq] at this

/-- Helper: whenever the scale factor is nonzero when enabled, the rescaling
inside `compute_grad_penalty` cancels and the result is the per-sample sum of
squared gradient entries. -/
lemma compute_grad_penalty_eval (grads : List (List ℚ)) (amp : AmpScaler)
    (hs : amp.enabled = true → amp.scale_factor ≠ 0) :
    compute_grad_penalty grads amp = grads.map sumSq := by
  unfold compute_grad_penalty
  cases he : amp.enabled with
  | false =>
    simp [AmpScaler.is_enabled, AmpScaler.scale, he]
  | true =>
    have hne : amp.scale_factor ≠ 0 := hs he
    have hid : ((fun x : ℚ => x / amp.scale_factor) ∘ fun x : ℚ =>
        amp.scale_factor * x) = id := by
      funext x
      simp only [Function.comp, id]
      exact mul_div_cancel_left₀ x hne
    simp [AmpScaler.is_enabled, AmpScaler.scale, AmpScaler.get_scale, he,
      List.map_map, hid]

/-- C1 (amended): for every batch of per-sample gradients and every AMP scaler
whose scale factor is positive when enabled, `compute_grad_penalty` returns,
for each sample, the SQUARED Euclidean norm of that sample's gradient taken
over the channel, height and width dimensions. -/
theorem compute_grad_penalty_eq_squared_norm (grads : List (List ℚ))
    (amp : AmpScaler) (hs : amp.enabled = true → 0 < amp.scale_factor) :
    compute_grad_penalty grads amp = grads.map sumSq :=
  compute_grad_penalty_eval grads amp (fun h => ne_of_gt (hs h))

/-- Witness for C1's amended theorem at a concrete gradient batch and an
enabled scaler with factor 3. -/
theorem compute_grad_penalty_eq_squared_norm_witness :
    compute_grad_penalty [[(1 : ℚ), 2], [3]] ⟨true, 3⟩ = [5, 9] := by
  have h := compute_grad_penalty_eq_squared_norm [[(1 : ℚ), 2], [3]] ⟨true, 3⟩
    (fun _ => by norm_num)
  rw [h]
  norm_num [sumSq]

/-- C2: the mixed-precision rescaling inside `compute_grad_penalty` preserves
the penalty: for every gradient batch and every enabled scaler with scale
factor `s > 0`, the result equals the result with scaling disabled (exact
arithmetic): multiplying the scores by `s` before differentiation is exactly
undone by dividing the gradient by `s`. -/
theorem compute_grad_penalty_scale_invariant (grads : List (List ℚ)) (s : ℚ)
    (hs : 0 < s) :
    compute_grad_penalty grads ⟨true, s⟩ = compute_grad_penalty grads ⟨false, 1⟩ := by
  rw [compute_grad_penalty_eval grads ⟨true, s⟩ (fun _ => ne_of_gt hs),
    compute_grad_penalty_eval grads ⟨false, 1⟩ (by intro h; cases h)]

/-- Witness for C2 at gradient batch `[[1, 2], [3]]` and scale factor 7. -/
theorem compute_grad_penalty_scale_invariant_witness :
    compute_grad_penalty [[(1 : ℚ), 2], [3]] ⟨true, 7⟩ =
      compute_grad_penalty [[(1 : ℚ), 2], [3]] ⟨false, 1⟩ :=
  compute_grad_penalty_scale_invariant [[(1 : ℚ), 2], [3]] 7 (by norm_num)

/-- `F.mse_loss`: mean of entrywise squared differences of two equally shaped
tensors, over flattened entries. -/
def mse (a b : List ℚ) : ℚ :=
  (List.zipWith (fun x y => (x - y) * (x - y)) a b).sum / a.length

/-- `tensor.mean()`: sum of the entries divided by their number. -/
def tensor_mean (l : List ℚ) : ℚ :=
  l.sum / l.length

/-- The loss hyperparameters read from `d_loss_kwargs` in `PiGANLoss.__init__`
(src/runners/losses/pigan_loss.py:21-24). -/
structure PiGANLossCfg where
  r1_gamma : ℚ
  r2_gamma : ℚ
  latent_gamma : ℚ
  camera_gamma : ℚ

/-- The per-batch quantities entering `PiGANLoss.d_loss` once the generator,
discriminator and augmentation forward passes (framework/model code external
to the loss module) are abstracted: discriminator scores on real and fake
samples, the gradients of the summed scores w.r.t. each input image (flattened
over channel/height/width), and the discriminator-predicted vs generator
latent and camera tensors (flattened). -/
structure DLossData where
  real_scores : List ℚ
  fake_scores : List ℚ
  real_grads : List (List ℚ)
  fake_grads : List (List ℚ)
  pred_latent : List ℚ
  gen_latent : List ℚ
  pred_camera : List ℚ
  gen_camera : List ℚ

/-- `PiGANLoss.d_loss` (src/runners/losses/pigan_loss.py:179-261), with the
softplus activation `sp` kept abstract (it is `F.softplus`, framework code):
`softplus(-real)` and `softplus(fake)` terms are AMP-scaled, the R1/R2
penalties are computed by `compute_grad_penalty` and AMP-scaled when the
corresponding gamma is positive and are `torch.zeros_like(...)` otherwise,
the identity penalty combines the camera and latent MSEs, and the result is
the mean of the elementwise sum with the scalar identity penalty broadcast. -/
def d_loss (sp : ℚ → ℚ) (cfg : PiGANLossCfg) (amp : AmpScaler)
    (d : DLossData) : ℚ :=
  let d_real_loss := d.real_scores.map (fun x => amp.scale (sp (-x)))
  let d_fake_loss := d.fake_scores.map (fun x => amp.scale (sp x))
  let r1_penalty :=
    if 0 < cfg.r1_gamma then
      (compute_grad_penalty d.real_grads amp).map (fun x => amp.scale x)
    else List.replicate d_real_loss.length 0
  let r2_penalty :=
    if 0 < cfg.r2_gamma then
      (compute_grad_penalty d.fake_grads amp).map (fun x => amp.scale x)
    else List.replicate d_fake_loss.length 0
  let latent_penalty := mse d.pred_latent d.gen_latent
  let camera_penalty := mse d.pred_camera d.gen_camera
  let id_penalty :=
    amp.scale (camera_penalty * cfg.camera_gamma +
      latent_penalty * cfg.latent_gamma)
  tensor_mean
    ((List.zipWith (· + ·)
        (List.zipWith (· + ·)
          (List.zipWith (· + ·) d_real_loss d_fake_loss)
          (r1_penalty.map (fun x => x * (cfg.r1_gamma * (1 / 2)))))
        (r2_penalty.map (fun x => x * (cfg.r2_gamma * (1 / 2))))).map
      (fun x => x + id_penalty))

/-- Helper: the sum of a list of rationals as a sum of `getD` values over
`Finset.range` of its length. -/
lemma list_sum_eq_range_sum (l : List ℚ) :
    l.sum = ∑ i ∈ Finset.range l.length, l.getD i 0 := by
  induction l with
  | nil => simp
  | cons a t ih =>
    rw [List.sum_cons, List.length_cons, Finset.sum_range_succ']
    simp only [List.getD_cons_succ, List.getD_cons_zero]
    rw [← ih, add_comm]

/-- Helper: `getD` at an in-bounds index is `get`. -/
lemma list_getD_of_lt {α : Type} (l : List α) (i : ℕ) (d : α)
    (h : i < l.length) :
    l.getD i d = l.get ⟨i, h⟩ := by
  simp [List.getD_eq_getElem?_getD, List.getElem?_eq_getElem h]

/-- Helper: the mean of the elementwise combination
`((A + B) + P1 * c1 + P2 * c2) + idp` of four equal-length lists with scalar
broadcasts, as an indexed sum. -/
lemma tensor_mean_add4 (A B P1 P2 : List ℚ) (c1 c2 idp : ℚ) (n : ℕ)
    (hA : A.length = n) (hB : B.length = n) (hP1 : P1.length = n)
    (hP2 : P2.length = n) :
    tensor_mean
      ((List.zipWith (· + ·)
          (List.zipWith (· + ·)
            (List.zipWith (· + ·) A B)
            (P1.map (fun x => x * c1)))
          (P2.map (fun x => x * c2))).map (fun x => x + idp)) =
      (∑ i ∈ Finset.range n,
        (A.getD i 0 + B.getD i 0 + c1 * P1.getD i 0 + c2 * P2.getD i 0 +
          idp)) / n := by
  have hL :
      ((List.zipWith (· + ·)
          (List.zipWith (· + ·)
            (List.zipWith (· + ·) A B)
            (P1.map (fun x => x * c1)))
          (P2.map (fun x => x * c2))).map (fun x => x + idp)).length = n := by
    simp [List.length_zipWith, hA, hB, hP1, hP2]
  rw [tensor_mean, list_sum_eq_range_sum, hL]
  congr 1
  apply Finset.sum_congr rfl
  intro i hi
  have hin : i < n := Finset.mem_range.mp hi
  rw [list_getD_of_lt _ i 0 (by rw [hL]; exact hin)]
  simp only [List.get_eq_getElem, List.getElem_map, List.getElem_zipWith]
  rw [list_getD_of_lt A i 0 (by rw [hA]; exact hin),
    list_getD_of_lt B i 0 (by rw [hB]; exact hin),
    list_getD_of_lt P1 i 0 (by rw [hP1]; exact hin),
    list_getD_of_lt P2 i 0 (by rw [hP2]; exact hin)]
  simp only [List.get_eq_getElem]
  ring

/-- C3: with mixed precision disabled (the AMP scaler is the identity),
`d_loss` returns the mean over the batch of
`softplus(-real_i) + softplus(fake_i) + (r1_gamma/2) * r1_penalty_i
  + (r2_gamma/2) * r2_penalty_i + id_penalty`, where
`id_penalty = camera_gamma * MSE(pred_camera, gen_camera)
  + latent_gamma * MSE(pred_latent, gen_latent)` and the R1 (resp. R2)
per-sample penalty is the squared gradient norm when `r1_gamma` (resp.
`r2_gamma`) is positive and identically zero otherwise. -/
theorem d_loss_formula (sp : ℚ → ℚ) (cfg : PiGANLossCfg) (d : DLossData)
    (n : ℕ)
    (hr : d.real_scores.length = n) (hf : d.fake_scores.length = n)
    (hg1 : d.real_grads.length = n) (hg2 : d.fake_grads.length = n) :
    d_loss sp cfg ⟨false, 1⟩ d =
      (∑ i ∈ Finset.range n,
        (sp (-(d.real_scores.getD i 0)) + sp (d.fake_scores.getD i 0)
          + cfg.r1_gamma / 2 *
            (if 0 < cfg.r1_gamma then sumSq (d.real_grads.getD i []) else 0)
          + cfg.r2_gamma / 2 *
            (if 0 < cfg.r2_gamma then sumSq (d.fake_grads.getD i []) else 0)
          + (cfg.camera_gamma * mse d.pred_camera d.gen_camera
             + cfg.latent_gamma * mse d.pred_latent d.gen_latent))) / n := by
  have hscale : ∀ x : ℚ, AmpScaler.scale ⟨false, 1⟩ x = x := by
    intro x; simp [AmpScaler.scale]
  have hpen1 : compute_grad_penalty d.real_grads ⟨false, 1⟩ =
      d.real_grads.map sumSq :=
    compute_grad_penalty_eval _ _ (by intro h; cases h)
  have hpen2 : compute_grad_penalty d.fake_grads ⟨false, 1⟩ =
      d.fake_grads.map sumSq :=
    compute_grad_penalty_eval _ _ (by intro h; cases h)
  rw [d_loss]
  simp only [hscale, hpen1, hpen2, List.map_id', List.length_map, hr, hf]
  rw [tensor_mean_add4
    (d.real_scores.map (fun x => sp (-x)))
    (d.fake_scores.map (fun x => sp x))
    (if 0 < cfg.r1_gamma then d.real_grads.map sumSq else List.replicate n 0)
    (if 0 < cfg.r2_gamma then d.fake_grads.map sumSq else List.replicate n 0)
    (cfg.r1_gamma * (1 / 2)) (cfg.r2_gamma * (1 / 2))
    (mse d.pred_camera d.gen_camera * cfg.camera_gamma +
      mse d.pred_latent d.gen_latent * cfg.latent_gamma) n
    (by simp [hr]) (by simp [hf])
    (by split <;> simp [hg1]) (by split <;> simp [hg2])]
  congr 1
  apply Finset.sum_congr rfl
  intro i hi
  have hin : i < n := Finset.mem_range.mp hi
  rw [list_getD_of_lt (d.real_scores.map (fun x => sp (-x))) i 0
      (by simp [hr]; exact hin),
    list_getD_of_lt (d.fake_scores.map (fun x => sp x)) i 0
      (by simp [hf]; exact hin),
    list_getD_of_lt d.real_scores i 0 (by rw [hr]; exact hin),
    list_getD_of_lt d.fake_scores i 0 (by rw [hf]; exact hin)]
  simp only [List.get_eq_getElem, List.getElem_map]
  have e1 : (if 0 < cfg.r1_gamma then d.real_grads.map sumSq
        else List.replicate n 0).getD i 0 =
      (if 0 < cfg.r1_gamma then sumSq (d.real_grads.getD i []) else 0) := by
    by_cases h1 : 0 < cfg.r1_gamma
    · simp only [h1, if_true]
      rw [list_getD_of_lt (d.real_grads.map sumSq) i 0
          (by simp [hg1]; exact hin),
        list_getD_of_lt d.real_grads i [] (by rw [hg1]; exact hin)]
      simp [List.get_eq_getElem]
    · simp [h1, List.getD_eq_getElem?_getD, List.getElem?_replicate, hin]
  have e2 : (if 0 < cfg.r2_gamma then d.fake_grads.map sumSq
        else List.replicate n 0).getD i 0 =
      (if 0 < cfg.r2_gamma then sumSq (d.fake_grads.getD i []) else 0) := by
    by_cases h2 : 0 < cfg.r2_gamma
    · simp only [h2, if_true]
      rw [list_getD_of_lt (d.fake_grads.map sumSq) i 0
          (by simp [hg2]; exact hin),
        list_getD_of_lt d.fake_grads i [] (by rw [hg2]; exact hin)]
      simp [List.get_eq_getElem]
    · simp [h2, List.getD_eq_getElem?_getD, List.getElem?_replicate, hin]
  rw [e1, e2]
  ring

/-- Witness for C3 at a one-sample batch with `sp` the identity,
`r1_gamma = 10`, `r2_gamma = 0`, `latent_gamma = 0`, `camera_gamma = 15`:
`-1 + 2 + 5 * 5 + 0 + 15 * 4 = 86`. -/
theorem d_loss_formula_witness :
    d_loss (fun x => x) ⟨10, 0, 0, 15⟩ ⟨false, 1⟩
      ⟨[1], [2], [[1, 2]], [[3]], [1], [0], [2], [0]⟩ = 86 := by
  rw [d_loss_formula (fun x => x) ⟨10, 0, 0, 15⟩
    ⟨[1], [2], [[1, 2]], [[3]], [1], [0], [2], [0]⟩ 1 rfl rfl rfl rfl]
  norm_num [sumSq, mse]

/-- One 2-D feature map (one batch sample, one channel): height, width and a
pixel function (entries outside the `h × w` domain are irrelevant).
`F.avg_pool2d` and nearest-mode `F.interpolate` act independently on every
batch sample and channel, so a single map is the faithful unit of modelling. -/
structure Image where
  h : ℕ
  w : ℕ
  pix : ℕ → ℕ → ℚ

/-- `F.avg_pool2d(images, kernel_size=2, stride=2, padding=0)`: halves both
spatial dimensions (floor), each output pixel averaging a 2x2 input block. -/
def avg_pool2 (img : Image) : Image :=
  ⟨img.h / 2, img.w / 2, fun i j =>
    (img.pix (2 * i) (2 * j) + img.pix (2 * i) (2 * j + 1) +
      img.pix (2 * i + 1) (2 * j) + img.pix (2 * i + 1) (2 * j + 1)) / 4⟩

/-- `F.interpolate(images, scale_factor=f, mode='nearest')` with an integer
factor: output pixel `(i, j)` reads input pixel `(i / f, j / f)`. -/
def up_nearest (f : ℕ) (img : Image) : Image :=
  ⟨img.h * f, img.w * f, fun i j => img.pix (i / f) (j / f)⟩

/-- `images * (1 - alpha) + upsampled_images * alpha`: elementwise blend.
Mismatched spatial shapes do not broadcast in the framework and raise,
modelled as `none`. -/
def tensor_blend (a b : Image) (alpha : ℚ) : Option Image :=
  if a.h = b.h ∧ a.w = b.w then
    some ⟨a.h, a.w, fun i j => a.pix i j * (1 - alpha) + b.pix i j * alpha⟩
  else none

/-- `PiGANLoss.preprocess_image` (src/runners/losses/pigan_loss.py:65-87),
modelled for the nonnegative levels of detail the runner produces:
downsample `int(lod)` times by 2x2 average pooling, blend with a
once-more-downsampled-then-2x-nearest-upsampled copy with weight
`lod - int(lod)` when `lod` is fractional, and finally nearest-upsample by
`2 ** int(lod)` (returning directly when `int(lod) == 0`). -/
def preprocess_image (img : Image) (lod : ℚ) : Option Image :=
  let k := (pyInt lod).toNat
  let images := avg_pool2^[k] img
  let blended :=
    if lod ≠ (pyInt lod : ℚ) then
      tensor_blend images (up_nearest 2 (avg_pool2 images)) (lod - pyInt lod)
    else some images
  blended.map (fun im => if k = 0 then im else up_nearest (2 ^ k) im)

/-- Helper: iterated 2x2 average pooling divides the height by `2 ^ k`. -/
lemma avg_pool2_iterate_h (img : Image) (k : ℕ) :
    (avg_pool2^[k] img).h = img.h / 2 ^ k := by
  induction k generalizing img with
  | zero => simp
  | succ k ih =>
    rw [Function.iterate_succ_apply, ih, avg_pool2, pow_succ, mul_comm,
      ← Nat.div_div_eq_div_mul]

/-- Helper: iterated 2x2 average pooling divides the width by `2 ^ k`. -/
lemma avg_pool2_iterate_w (img : Image) (k : ℕ) :
    (avg_pool2^[k] img).w = img.w / 2 ^ k := by
  induction k generalizing img with
  | zero => simp
  | succ k ih =>
    rw [Function.iterate_succ_apply, ih, avg_pool2, pow_succ, mul_comm,
      ← Nat.div_div_eq_div_mul]

/-- Helper: a fractional rational has ceiling one above its floor. -/
lemma ceil_eq_floor_add_one_of_ne (q : ℚ) (h : q ≠ (⌊q⌋ : ℚ)) :
    ⌈q⌉ = ⌊q⌋ + 1 := by
  have h1 : ⌈q⌉ ≤ ⌊q⌋ + 1 := Int.ceil_le_floor_add_one q
  have h2 : ⌊q⌋ < ⌈q⌉ := by
    by_contra hc
    push_neg at hc
    have hle : (⌈q⌉ : ℚ) ≤ (⌊q⌋ : ℚ) := by exact_mod_cast hc
    have hq : q = (⌊q⌋ : ℚ) :=
      le_antisymm (le_trans (Int.le_ceil q) hle) (Int.floor_le q)
    exact h hq
  omega

/-- C4: `preprocess_image` implements progressive level-of-detail blending.
For `lod = 0` it returns the input unchanged, and for every nonnegative `lod`
and every input whose height and width are divisible by `2 ^ ⌈lod⌉` the output
exists (the blend shapes match) and has the same spatial shape as the input. -/
theorem preprocess_image_lod_spec (img : Image) (lod : ℚ) (h0 : 0 ≤ lod)
    (hh : 2 ^ (⌈lod⌉.toNat) ∣ img.h) (hw : 2 ^ (⌈lod⌉.toNat) ∣ img.w) :
    preprocess_image img 0 = some img ∧
      ∃ out, preprocess_image img lod = some out ∧
        out.h = img.h ∧ out.w = img.w := by
  have part1 : preprocess_image img 0 = some img := by
    simp [preprocess_image, pyInt]
  refine ⟨part1, ?_⟩
  have hfl : pyInt lod = ⌊lod⌋ := by rw [pyInt, if_pos h0]
  set k : ℕ := (pyInt lod).toNat with hk
  have hkfl : (k : ℤ) = ⌊lod⌋ := by
    rw [hk, hfl]
    exact Int.toNat_of_nonneg (Int.floor_nonneg.mpr h0)
  have hkm : k ≤ ⌈lod⌉.toNat := by
    have := Int.floor_le_ceil lod
    omega
  have hdvd_h : 2 ^ k ∣ img.h := dvd_trans (pow_dvd_pow 2 hkm) hh
  have hdvd_w : 2 ^ k ∣ img.w := dvd_trans (pow_dvd_pow 2 hkm) hw
  have hah : (avg_pool2^[k] img).h = img.h / 2 ^ k := avg_pool2_iterate_h img k
  have haw : (avg_pool2^[k] img).w = img.w / 2 ^ k := avg_pool2_iterate_w img k
  by_cases hint : lod = (pyInt lod : ℚ)
  · -- integer level of detail: no blending step
    refine ⟨if k = 0 then avg_pool2^[k] img
        else up_nearest (2 ^ k) (avg_pool2^[k] img), ?_, ?_, ?_⟩
    · simp only [preprocess_image, ← hk]
      rw [if_neg (by simpa using hint)]
      simp
    · by_cases hk0 : k = 0
      · simp [hk0]
      · simp [hk0, up_nearest, hah, Nat.div_mul_cancel hdvd_h]
    · by_cases hk0 : k = 0
      · simp [hk0]
      · simp [hk0, up_nearest, haw, Nat.div_mul_cancel hdvd_w]
  · -- fractional level of detail: blending step, needs matching shapes
    have hne : lod ≠ (⌊lod⌋ : ℚ) := by rw [← hfl]; exact hint
    have hceil : ⌈lod⌉ = ⌊lod⌋ + 1 := ceil_eq_floor_add_one_of_ne lod hne
    have hm : ⌈lod⌉.toNat = k + 1 := by omega
    have hh2 : 2 ^ (k + 1) ∣ img.h := by rw [← hm]; exact hh
    have hw2 : 2 ^ (k + 1) ∣ img.w := by rw [← hm]; exact hw
    have heven_h : 2 ∣ img.h / 2 ^ k := by
      rw [Nat.dvd_div_iff_mul_dvd hdvd_h, ← pow_succ]
      exact hh2
    have heven_w : 2 ∣ img.w / 2 ^ k := by
      rw [Nat.dvd_div_iff_mul_dvd hdvd_w, ← pow_succ]
      exact hw2
    have hbh : (avg_pool2^[k] img).h =
        (up_nearest 2 (avg_pool2 (avg_pool2^[k] img))).h := by
      rw [up_nearest, avg_pool2]
      simp only []
      rw [hah, Nat.div_mul_cancel heven_h]
    have hbw : (avg_pool2^[k] img).w =
        (up_nearest 2 (avg_pool2 (avg_pool2^[k] img))).w := by
      rw [up_nearest, avg_pool2]
      simp only []
      rw [haw, Nat.div_mul_cancel heven_w]
    have hblend : tensor_blend (avg_pool2^[k] img)
        (up_nearest 2 (avg_pool2 (avg_pool2^[k] img))) (lod - pyInt lod) =
        some ⟨(avg_pool2^[k] img).h, (avg_pool2^[k] img).w,
          fun i j => (avg_pool2^[k] img).pix i j * (1 - (lod - pyInt lod)) +
            (up_nearest 2 (avg_pool2 (avg_pool2^[k] img))).pix i j *
              (lod - pyInt lod)⟩ := by
      rw [tensor_blend, if_pos ⟨hbh, hbw⟩]
    refine ⟨if k = 0 then
        (⟨(avg_pool2^[k] img).h, (avg_pool2^[k] img).w,
          fun i j => (avg_pool2^[k] img).pix i j * (1 - (lod - pyInt lod)) +
            (up_nearest 2 (avg_pool2 (avg_pool2^[k] img))).pix i j *
              (lod - pyInt lod)⟩ : Image)
      else up_nearest (2 ^ k)
        ⟨(avg_pool2^[k] img).h, (avg_pool2^[k] img).w,
          fun i j => (avg_pool2^[k] img).pix i j * (1 - (lod - pyInt lod)) +
            (up_nearest 2 (avg_pool2 (avg_pool2^[k] img))).pix i j *
              (lod - pyInt lod)⟩, ?_, ?_, ?_⟩
    · simp only [preprocess_image, ← hk]
      rw [if_pos (by simpa using hint), hblend]
      rfl
    · by_cases hk0 : k = 0
      · simp [hk0, hah]
      · simp [hk0, up_nearest, hah, Nat.div_mul_cancel hdvd_h]
    · by_cases hk0 : k = 0
      · simp [hk0, haw]
      · simp [hk0, up_nearest, haw, Nat.div_mul_cancel hdvd_w]

/-- Witness for C4 at a 4x4 zero image and `lod = 3/2` (so `⌈lod⌉ = 2` and
`2 ^ 2 ∣ 4`). -/
theorem preprocess_image_lod_spec_witness :
    preprocess_image ⟨4, 4, fun _ _ => 0⟩ 0 = some ⟨4, 4, fun _ _ => 0⟩ ∧
      ∃ out, preprocess_image ⟨4, 4, fun _ _ => 0⟩ (3 / 2) = some out ∧
        out.h = 4 ∧ out.w = 4 := by
  have hc : ⌈(3 / 2 : ℚ)⌉ = 2 := by
    rw [Int.ceil_eq_iff]
    constructor <;> norm_num
  exact preprocess_image_lod_spec ⟨4, 4, fun _ _ => 0⟩ (3 / 2) (by norm_num)
    (by rw [hc]; decide) (by rw [hc]; decide)

/-- Python `range(0, stop, step)` for a positive `step`. -/
def pyRange0 (stop step : ℕ) : List ℕ :=
  (List.range ((stop + step - 1) / step)).map (fun i => i * step)

/-- Merging one forward pass's value at one result-dictionary key into the
accumulated entry (src/runners/losses/pigan_loss.py:118-127 and 147-156):
tensors are concatenated with `torch.cat`, a `None` value sets the entry to
`None`, and `torch.cat` applied to an accumulated `None` raises. -/
def merge_val {β : Type} :
    Option (List β) → Option (List β) → Except String (Option (List β))
  | some xs, some ys => .ok (some (xs ++ ys))
  | _, none => .ok none
  | none, some _ => .error "TypeError"

/-- Folds `merge_val` over the values of the remaining forward passes. -/
def cat_chunks_aux {α β : Type} (f : List α → Option (List β))
    (acc : Option (List β)) :
    List (List α) → Except String (Option (List β))
  | [] => .ok acc
  | c :: rest =>
    match merge_val acc (f c) with
    | .error e => .error e
    | .ok acc2 => cat_chunks_aux f acc2 rest

/-- The per-key result of the chunked forward passes: the first pass stores
its value (`results[key] = val` when the key is new), later passes merge. -/
def cat_chunks {α β : Type} (f : List α → Option (List β)) :
    List (List α) → Except String (Option (List β))
  | [] => .ok none
  | c :: rest => cat_chunks_aux f (f c) rest

/-- The consecutive chunks `images[batch_idx : batch_idx + split_batch_size]`
for `batch_idx in range(0, batch_size, split_batch_size)`. -/
def split_chunks {α : Type} (images : List α) (split : ℕ) : List (List α) :=
  let sbs := images.length / split
  (pyRange0 images.length sbs).map (fun idx => (images.drop idx).take sbs)

/-- Common batch-splitting core of `PiGANLoss.run_G` and `PiGANLoss.run_D` at
one key of the result dictionary, with the model's forward pass `f` on a chunk
abstracted.  In the source, `batch_size % split` with `split == 0` raises
`ZeroDivisionError`, then `assert batch_size % split == 0` fires, then `range`
with step `0` (empty batch) raises `ValueError`; otherwise the forward passes
run over the consecutive chunks and the per-key values are merged.  Returns
the number of forward passes together with the merged entry. -/
def run_split {α β : Type} (images : List α) (split : ℕ)
    (f : List α → Option (List β)) : Except String (ℕ × Option (List β)) :=
  if split = 0 then .error "ZeroDivisionError"
  else if images.length % split ≠ 0 then .error "AssertionError"
  else if images.length / split = 0 then .error "ValueError"
  else
    match cat_chunks f (split_chunks images split) with
    | .error e => .error e
    | .ok out => .ok ((split_chunks images split).length, out)

/-- `PiGANLoss.run_G` (src/runners/losses/pigan_loss.py:89-128) at one result
key: `latents` is the `torch.randn((batch_size, *latent_dim))` draw (so its
length is the batch size) and `f` the generator's forward pass on a chunk of
latent codes (labels, DDP synchronization and keyword arguments abstracted). -/
def run_G {α β : Type} (latents : List α) (split : ℕ)
    (f : List α → Option (List β)) : Except String (ℕ × Option (List β)) :=
  run_split latents split f

/-- `PiGANLoss.run_D` (src/runners/losses/pigan_loss.py:130-157) at one result
key: the batch size is `images.shape[0]` and `f` is the discriminator's
forward pass on a chunk of (augmented) images. -/
def run_D {α β : Type} (images : List α) (split : ℕ)
    (f : List α → Option (List β)) : Except String (ℕ × Option (List β)) :=
  run_split images split f

/-- Helper: the number of `range(0, m * s, s)` iterations is `m`. -/
lemma pyRange0_count (m s : ℕ) (hs : 0 < s) :
    pyRange0 (m * s) s = (List.range m).map (fun i => i * s) := by
  unfold pyRange0
  congr 2
  have h1 : m * s + s - 1 = s - 1 + m * s := by omega
  rw [h1, Nat.add_mul_div_right _ _ hs, Nat.div_eq_of_lt (by omega)]
  omega

/-- Helper: the consecutive `s`-sized slices of a list of length `m * s`
concatenate back to the list. -/
lemma flatten_slices {α : Type} (s : ℕ) :
    ∀ (m : ℕ) (l : List α), l.length = m * s →
      ((List.range m).map (fun i => (l.drop (i * s)).take s)).flatten = l := by
  intro m
  induction m with
  | zero =>
    intro l hl
    have : l = [] := List.eq_nil_of_length_eq_zero (by simpa using hl)
    simp [this]
  | succ m ih =>
    intro l hl
    rw [List.range_succ_eq_map]
    simp only [List.map_cons, List.map_map, List.flatten_cons, Nat.zero_mul,
      List.drop_zero]
    have hmap : (List.range m).map
        ((fun i => (l.drop (i * s)).take s) ∘ Nat.succ) =
        (List.range m).map
          (fun i => (((l.drop s).drop (i * s)).take s)) := by
      apply List.map_congr_left
      intro i _
      simp only [Function.comp]
      rw [List.drop_drop]
      congr 2
      rw [Nat.succ_mul]
      omega
    rw [hmap]
    have hlen : (l.drop s).length = m * s := by
      rw [List.length_drop, hl, Nat.succ_mul]
      omega
    rw [ih (l.drop s) hlen, List.take_append_drop]

/-- Helper: under a positive split that divides a positive batch size, the
chunk list consists of exactly `split` consecutive chunks of size
`batch / split` that concatenate back to the batch. -/
lemma split_chunks_spec {α : Type} (images : List α) (split : ℕ)
    (hs : 0 < split) (hb : 0 < images.length)
    (hdvd : images.length % split = 0) :
    (split_chunks images split).length = split ∧
      (∀ c ∈ split_chunks images split,
        c.length = images.length / split) ∧
      (split_chunks images split).flatten = images := by
  set sbs := images.length / split with hsbsdef
  have hdvd2 : split ∣ images.length := Nat.dvd_of_mod_eq_zero hdvd
  have hlen : images.length = split * sbs := by
    rw [hsbsdef]
    exact (Nat.mul_div_cancel' hdvd2).symm
  have hsbs : 0 < sbs := by
    rw [hsbsdef]
    exact Nat.div_pos (Nat.le_of_dvd hb hdvd2) hs
  have hpr : pyRange0 images.length sbs =
      (List.range split).map (fun i => i * sbs) := by
    have h := pyRange0_count split sbs hsbs
    rw [← hlen] at h
    exact h
  have hchunks : split_chunks images split =
      (List.range split).map (fun i => (images.drop (i * sbs)).take sbs) := by
    unfold split_chunks
    simp only [hpr, List.map_map]
    rfl
  refine ⟨?_, ?_, ?_⟩
  · rw [hchunks]
    simp
  · intro c hc
    rw [hchunks] at hc
    obtain ⟨i, hi, hslice⟩ := List.mem_map.mp hc
    have hilt : i < split := List.mem_range.mp hi
    have hmul : (i + 1) * sbs ≤ split * sbs := Nat.mul_le_mul_right _ hilt
    have hexp : (i + 1) * sbs = i * sbs + sbs := by ring
    rw [← hslice]
    simp only [List.length_take, List.length_drop]
    omega
  · rw [hchunks]
    exact flatten_slices sbs split images hlen

/-- Helper: folding the merge over passes that all return equally long
tensors concatenates them. -/
lemma cat_chunks_aux_some {α β : Type} (f : List α → Option (List β))
    (chunks : List (List α)) :
    ∀ (l0 : List β),
      (∀ c ∈ chunks, ∃ lc, f c = some lc ∧ lc.length = c.length) →
      ∃ lr, cat_chunks_aux f (some l0) chunks = .ok (some lr) ∧
        lr.length = l0.length + (chunks.map List.length).sum := by
  induction chunks with
  | nil =>
    intro l0 _
    exact ⟨l0, rfl, by simp⟩
  | cons c rest ih =>
    intro l0 hall
    obtain ⟨lc, hfc, hlc⟩ := hall c (by simp)
    obtain ⟨lr, hrun, hlen⟩ :=
      ih (l0 ++ lc) (fun x hx => hall x (by simp [hx]))
    refine ⟨lr, ?_, ?_⟩
    · simp only [cat_chunks_aux, hfc, merge_val, hrun]
    · rw [hlen]
      simp only [List.length_append, List.map_cons, List.sum_cons, hlc]
      omega

/-- Helper: the per-key result of all-tensor passes is the concatenation. -/
lemma cat_chunks_ok_of_all_some {α β : Type} (f : List α → Option (List β))
    (chunks : List (List α))
    (hall : ∀ c ∈ chunks, ∃ lc, f c = some lc ∧ lc.length = c.length) :
    ∃ out, cat_chunks f chunks = .ok out ∧
      ∀ l, out = some l → l.length = (chunks.map List.length).sum := by
  cases chunks with
  | nil => exact ⟨none, rfl, fun l hl => by cases hl⟩
  | cons c rest =>
    obtain ⟨lc, hfc, hlc⟩ := hall c (by simp)
    obtain ⟨lr, hrun, hlen⟩ :=
      cat_chunks_aux_some f rest lc (fun x hx => hall x (by simp [hx]))
    refine ⟨some lr, ?_, ?_⟩
    · simp only [cat_chunks, hfc, hrun]
    · intro l hl
      cases hl
      rw [hlen]
      simp [hlc]

/-- Helper: a key whose value is `None` on every pass merges to `None`. -/
lemma cat_chunks_aux_none {α β : Type} (f : List α → Option (List β)) :
    ∀ chunks, (∀ c ∈ chunks, f c = none) →
      cat_chunks_aux f none chunks = .ok none := by
  intro chunks
  induction chunks with
  | nil => intro _; rfl
  | cons c rest ih =>
    intro hall
    have hfc : f c = none := hall c (by simp)
    simp only [cat_chunks_aux, hfc, merge_val]
    exact ih (fun x hx => hall x (by simp [hx]))

/-- Helper: the per-key result of all-`None` passes is `None`. -/
lemma cat_chunks_ok_of_all_none {α β : Type} (f : List α → Option (List β))
    (chunks : List (List α)) (hall : ∀ c ∈ chunks, f c = none) :
    cat_chunks f chunks = .ok none := by
  cases chunks with
  | nil => rfl
  | cons c rest =>
    have hfc : f c = none := hall c (by simp)
    simp only [cat_chunks, hfc]
    exact cat_chunks_aux_none f rest (fun x hx => hall x (by simp [hx]))

/-- Helper: the full behaviour of the batch-splitting core under the stated
preconditions: no exception, `split` forward passes, and a concatenated
first dimension equal to the batch size on every tensor key. -/
lemma run_split_spec {α β : Type} (images : List α) (split : ℕ)
    (f : List α → Option (List β))
    (hs : 0 < split) (hb : 0 < images.length)
    (hdvd : images.length % split = 0)
    (hf : ∀ c l, f c = some l → l.length = c.length)
    (hcons : (∀ c, (f c).isSome = true) ∨ (∀ c, f c = none)) :
    ∃ out, run_split images split f = .ok (split, out) ∧
      ∀ l, out = some l → l.length = images.length := by
  obtain ⟨hcount, hclen, _⟩ := split_chunks_spec images split hs hb hdvd
  have hsbs : 0 < images.length / split :=
    Nat.div_pos (Nat.le_of_dvd hb (Nat.dvd_of_mod_eq_zero hdvd)) hs
  have hsum : ((split_chunks images split).map List.length).sum =
      images.length := by
    have hrep : (split_chunks images split).map List.length =
        List.replicate split (images.length / split) :=
      List.eq_replicate_iff.mpr ⟨by simp [hcount],
        by
          intro x hx
          obtain ⟨c, hc, hxc⟩ := List.mem_map.mp hx
          rw [← hxc]
          exact hclen c hc⟩
    rw [hrep, List.sum_const_nat,
      Nat.mul_div_cancel' (Nat.dvd_of_mod_eq_zero hdvd)]
  rcases hcons with hsome | hnone
  · have hall : ∀ c ∈ split_chunks images split,
        ∃ lc, f c = some lc ∧ lc.length = c.length := by
      intro c _
      obtain ⟨lc, hlc⟩ := Option.isSome_iff_exists.mp (hsome c)
      exact ⟨lc, hlc, hf c lc hlc⟩
    obtain ⟨out, hcat, hlen⟩ := cat_chunks_ok_of_all_some f _ hall
    refine ⟨out, ?_, ?_⟩
    · rw [run_split, if_neg (by omega), if_neg (by simp [hdvd]),
        if_neg (by omega), hcat, hcount]
    · intro l hl
      rw [hlen l hl, hsum]
  · refine ⟨none, ?_, fun l hl => by cases hl⟩
    rw [run_split, if_neg (by omega), if_neg (by simp [hdvd]),
      if_neg (by omega),
      cat_chunks_ok_of_all_none f _ (fun c _ => hnone c), hcount]

/-- C5: `run_G` and `run_D` assert that the batch size is divisible by the
split count; under that precondition (with a positive batch and split) the
assertion never fires, each function performs exactly `split` forward passes
over consecutive chunks of size `batch_size / split` (the chunks concatenate
back to the batch), and every tensor entry of the concatenated result
dictionary has first dimension equal to the full batch size. -/
theorem run_G_run_D_batch_split {α β κ : Type}
    (latents images : List α) (split : ℕ)
    (MG MD : List α → κ → Option (List β))
    (hs : 0 < split) (hlb : 0 < latents.length) (hib : 0 < images.length)
    (hldvd : latents.length % split = 0)
    (hidvd : images.length % split = 0)
    (hMG : ∀ c k l, MG c k = some l → l.length = c.length)
    (hMD : ∀ c k l, MD c k = some l → l.length = c.length)
    (hGcons : ∀ k, (∀ c, (MG c k).isSome = true) ∨ (∀ c, MG c k = none))
    (hDcons : ∀ k, (∀ c, (MD c k).isSome = true) ∨ (∀ c, MD c k = none)) :
    ((split_chunks latents split).length = split ∧
      (∀ c ∈ split_chunks latents split,
        c.length = latents.length / split) ∧
      (split_chunks latents split).flatten = latents ∧
      ∀ k, ∃ out, run_G latents split (fun c => MG c k) = .ok (split, out) ∧
        ∀ l, out = some l → l.length = latents.length) ∧
    ((split_chunks images split).length = split ∧
      (∀ c ∈ split_chunks images split,
        c.length = images.length / split) ∧
      (split_chunks images split).flatten = images ∧
      ∀ k, ∃ out, run_D images split (fun c => MD c k) = .ok (split, out) ∧
        ∀ l, out = some l → l.length = images.length) := by
  obtain ⟨hl1, hl2, hl3⟩ := split_chunks_spec latents split hs hlb hldvd
  obtain ⟨hi1, hi2, hi3⟩ := split_chunks_spec images split hs hib hidvd
  refine ⟨⟨hl1, hl2, hl3, fun k => ?_⟩, ⟨hi1, hi2, hi3, fun k => ?_⟩⟩
  · exact run_split_spec latents split (fun c => MG c k) hs hlb hldvd
      (fun c l => hMG c k l) (hGcons k)
  · exact run_split_spec images split (fun c => MD c k) hs hib hidvd
      (fun c l => hMD c k l) (hDcons k)

/-- Witness for C5 with latent batch `[10, 20]`, image batch `[1, 2, 3, 4]`,
split 2 and identity models. -/
theorem run_G_run_D_batch_split_witness :
    (split_chunks [(10 : ℕ), 20] 2).length = 2 ∧
      (split_chunks [(1 : ℕ), 2, 3, 4] 2).flatten = [1, 2, 3, 4] := by
  have h := run_G_run_D_batch_split (κ := Unit) [(10 : ℕ), 20] [1, 2, 3, 4] 2
    (fun c _ => some c) (fun c _ => some c)
    (by norm_num) (by norm_num) (by norm_num) (by norm_num) (by norm_num)
    (fun c k l hl => by cases hl; rfl) (fun c k l hl => by cases hl; rfl)
    (fun k => Or.inl (fun c => rfl)) (fun k => Or.inl (fun c => rfl))
  exact ⟨h.1.1, h.2.2.2.1⟩

/-- `FEATURE_DIM` (src/metrics/kid.py:23): dimension of an inception
feature. -/
def FEATURE_DIM : ℕ := 2048

/-- The environment of `KIDMetric.extract_real_features`: the dataset name and
size, the configured `self.real_num` (negative means "use the whole dataset"),
the contents of the cache directory (a partial map from file name to stored
array), and whether this process is the chief. -/
structure RealFeatEnv where
  dataset_name : String
  dataset_size : ℕ
  real_num_cfg : ℤ
  cache : String → Option (List (List ℚ))
  is_chief : Bool

/-- The effective number of real samples (src/metrics/kid.py:77-80). -/
def kid_real_num (env : RealFeatEnv) : ℕ :=
  if env.real_num_cfg < 0 then env.dataset_size
  else min env.real_num_cfg.toNat env.dataset_size

/-- The cache file name
`f'{dataset_name}_{real_num}_inception_feature.npy'`
(src/metrics/kid.py:83). -/
def kid_cache_name (env : RealFeatEnv) : String :=
  env.dataset_name ++ "_" ++ toString (kid_real_num env) ++
    "_inception_feature.npy"

/-- Observable outcome of `KIDMetric.extract_real_features`: whether the
inception model ran, what file (if any) was written, and the returned value. -/
structure RealFeatOut where
  ran_model : Bool
  saved : Option (String × List (List ℚ))
  ret : Option (List (List ℚ))
deriving DecidableEq

/-- `KIDMetric.extract_real_features` (src/metrics/kid.py:75-126).  `gathered`
abstracts `gather_all_results(...)` (distributed framework code): the features
collected over the extraction loop, which the source slices to `real_num`;
on a non-chief process the gather returns an empty collection.  On a cache
hit the file is loaded (`None` on non-chief) and the model is not run;
otherwise the chief asserts the `(real_num, FEATURE_DIM)` shape and saves to
the cache path, and non-chief processes assert emptiness and return `None`. -/
def extract_real_features (env : RealFeatEnv) (gathered : List (List ℚ)) :
    Except String RealFeatOut :=
  let real_num := kid_real_num env
  let cache_path := kid_cache_name env
  match env.cache cache_path with
  | some arr => .ok ⟨false, none, if env.is_chief then some arr else none⟩
  | none =>
    let all_features := gathered.take real_num
    if env.is_chief then
      if all_features.length = real_num ∧
          ∀ row ∈ all_features, row.length = FEATURE_DIM then
        .ok ⟨true, some (cache_path, all_features), some all_features⟩
      else .error "AssertionError"
    else
      if all_features.length = 0 then .ok ⟨true, none, none⟩
      else .error "AssertionError"

/-- C6: `extract_real_features` caches inception features: `real_num` is
`min(self.real_num, dataset size)` when `self.real_num >= 0` and the dataset
size otherwise; the cache file is named exactly
`{dataset_name}_{real_num}_inception_feature.npy`; if it exists the features
are loaded from it and the inception model is not run; otherwise features are
extracted and, on the chief process, a `(real_num, 2048)`-shaped array is
asserted and saved to exactly that path, while non-chief processes return
`None`. -/
theorem extract_real_features_spec (env : RealFeatEnv)
    (gathered : List (List ℚ)) :
    (kid_real_num env = if 0 ≤ env.real_num_cfg
        then min env.real_num_cfg.toNat env.dataset_size
        else env.dataset_size) ∧
    (kid_cache_name env = env.dataset_name ++ "_" ++
        toString (kid_real_num env) ++ "_inception_feature.npy") ∧
    (∀ arr, env.cache (kid_cache_name env) = some arr →
      extract_real_features env gathered =
        .ok ⟨false, none, if env.is_chief then some arr else none⟩) ∧
    (env.cache (kid_cache_name env) = none →
      (env.is_chief = true →
        ((gathered.take (kid_real_num env)).length = kid_real_num env ∧
            ∀ row ∈ gathered.take (kid_real_num env),
              row.length = FEATURE_DIM) →
        extract_real_features env gathered =
          .ok ⟨true,
            some (kid_cache_name env, gathered.take (kid_real_num env)),
            some (gathered.take (kid_real_num env))⟩) ∧
      (env.is_chief = false → gathered.take (kid_real_num env) = [] →
        extract_real_features env gathered = .ok ⟨true, none, none⟩)) := by
  refine ⟨?_, rfl, ?_, ?_⟩
  · rw [kid_real_num]
    rcases lt_or_le env.real_num_cfg 0 with hneg | hpos
    · rw [if_pos hneg, if_neg (by omega)]
    · rw [if_neg (by omega), if_pos hpos]
  · intro arr harr
    rw [extract_real_features]
    simp only [harr]
  · intro hmiss
    constructor
    · intro hchief hshape
      rw [extract_real_features]
      simp only [hmiss, hchief, if_true, if_pos hshape]
    · intro hchief hempty
      rw [extract_real_features]
      simp only [hmiss, hchief, Bool.false_eq_true, if_false, hempty,
        List.length_nil, if_pos rfl]
      simp

/-- Witness for C6 on a cache miss on the chief process with three
2048-dimensional feature rows. -/
theorem extract_real_features_spec_witness :
    extract_real_features ⟨"celeba", 3, -1, fun _ => none, true⟩
        (List.replicate 3 (List.replicate 2048 0)) =
      .ok ⟨true,
        some ("celeba_3_inception_feature.npy",
          List.replicate 3 (List.replicate 2048 0)),
        some (List.replicate 3 (List.replicate 2048 0))⟩ := by
  have hrn : kid_real_num ⟨"celeba", 3, -1, fun _ => none, true⟩ = 3 := rfl
  have htake : (List.replicate 3 (List.replicate 2048 (0 : ℚ))).take
      (kid_real_num ⟨"celeba", 3, -1, fun _ => none, true⟩) =
      List.replicate 3 (List.replicate 2048 0) := by
    rw [hrn, List.take_replicate]
    norm_num
  have h := ((extract_real_features_spec
      ⟨"celeba", 3, -1, fun _ => none, true⟩
      (List.replicate 3 (List.replicate 2048 0))).2.2.2 rfl).1 rfl
    (by
      constructor
      · rw [htake, hrn, List.length_replicate]
      · intro row hrow
        rw [htake] at hrow
        have hrow2 : row = List.replicate 2048 (0 : ℚ) :=
          List.eq_of_mem_replicate hrow
        rw [hrow2, List.length_replicate, FEATURE_DIM])
  rw [h]
  have hname : kid_cache_name ⟨"celeba", 3, -1, fun _ => none, true⟩ =
      "celeba_3_inception_feature.npy" := rfl
  rw [hname, htake]

/-- The exact rational value of the IEEE-754 double `np.pi`
(`884279719003555 / 2 ^ 48`). -/
def np_pi : ℚ := 884279719003555 / 281474976710656

/-- `np.linspace(a, b, n)` in exact arithmetic: `n` samples stepping by
`(b - a) / (n - 1)`, inclusive of both endpoints. -/
def linspace (a b : ℚ) (n : ℕ) : List ℚ :=
  (List.range n).map (fun i : ℕ => a + (i : ℚ) * ((b - a) / ((n : ℚ) - 1)))

/-- A fixed camera pose as passed to `sample_camera_extrinsics(...)` with the
`'fix'` strategies (src/metrics/gan_snapshot_multiview.py:116-123); the
extrinsics builder itself lives outside this repository's loss/metric code and
is modelled by the fixed parameters it receives. -/
structure Camera where
  radius : ℚ
  polar : ℚ
  azimuthal : ℚ
deriving DecidableEq

/-- The configuration of `GANSnapshotMultiView.synthesize`: latent count,
per-replica latent count, chief flag, camera radius and azimuthal range. -/
structure MVCfg where
  latent_num : ℕ
  replica_latent_num : ℕ
  is_chief : Bool
  radius : ℚ
  azimuthal_start : ℚ
  azimuthal_end : ℚ

/-- The cameras of the inner loop
`for azimuthal in np.linspace(azimuthal_start, azimuthal_end, 8)`:
radius fixed at `self.radius`, polar fixed at `np.pi / 2`, azimuthal from the
linspace (src/metrics/gan_snapshot_multiview.py:114-123). -/
def snapshot_cameras (m : MVCfg) : List Camera :=
  (linspace m.azimuthal_start m.azimuthal_end 8).map
    (fun az => ⟨m.radius, np_pi / 2, az⟩)

/-- The images this replica renders in `synthesize`: batches of size 1 over
`range(0, replica_latent_num, 1)`, each rendered once per camera, appended in
loop order; `G idx c` is the generator's image batch for latent `idx` at
camera `c`. -/
def snapshot_local_images {α : Type} (m : MVCfg) (G : ℕ → Camera → List α) :
    List α :=
  ((List.range m.replica_latent_num).map
    (fun idx => ((snapshot_cameras m).map (fun c => G idx c)).flatten)).flatten

/-- The tail of `GANSnapshotMultiView.synthesize`
(src/metrics/gan_snapshot_multiview.py:131-143): slice the gathered images to
`latent_num * 8`, assert that count on the chief (returning the collection)
and emptiness on non-chief processes (returning `None`).  `gathered` abstracts
`gather_all_results(all_images)`, the distributed gather. -/
def synthesize {α : Type} (m : MVCfg) (gathered : List α) :
    Except String (Option (List α)) :=
  let all_images := gathered.take (m.latent_num * 8)
  if m.is_chief then
    if all_images.length = m.latent_num * 8 then .ok (some all_images)
    else .error "AssertionError"
  else
    if all_images.length = 0 then .ok none else .error "AssertionError"

/-- C7: `synthesize` renders each latent code from exactly 8 camera views
whose azimuthal angles are evenly spaced from `azimuthal_start` to
`azimuthal_end` inclusive (consecutive step `(end - start) / 7`), with the
radius fixed at `self.radius` and the polar angle fixed at `np.pi / 2`; with
one image per render the replica produces `replica_latent_num * 8` images; on
the chief process the returned collection contains exactly `latent_num * 8`
images (asserted), and on non-chief processes the function returns `None`. -/
theorem snapshot_multiview_spec {α : Type} (m : MVCfg)
    (G : ℕ → Camera → List α) (gathered : List α)
    (hG : ∀ idx c, (G idx c).length = 1) :
    (snapshot_cameras m).length = 8 ∧
    (∀ c ∈ snapshot_cameras m, c.radius = m.radius ∧ c.polar = np_pi / 2) ∧
    ((snapshot_cameras m).map Camera.azimuthal =
      [m.azimuthal_start,
       m.azimuthal_start + (m.azimuthal_end - m.azimuthal_start) / 7,
       m.azimuthal_start + 2 * ((m.azimuthal_end - m.azimuthal_start) / 7),
       m.azimuthal_start + 3 * ((m.azimuthal_end - m.azimuthal_start) / 7),
       m.azimuthal_start + 4 * ((m.azimuthal_end - m.azimuthal_start) / 7),
       m.azimuthal_start + 5 * ((m.azimuthal_end - m.azimuthal_start) / 7),
       m.azimuthal_start + 6 * ((m.azimuthal_end - m.azimuthal_start) / 7),
       m.azimuthal_end]) ∧
    (snapshot_local_images m G).length = m.replica_latent_num * 8 ∧
    (m.is_chief = true → m.latent_num * 8 ≤ gathered.length →
      synthesize m gathered = .ok (some (gathered.take (m.latent_num * 8))) ∧
        (gathered.take (m.latent_num * 8)).length = m.latent_num * 8) ∧
    (m.is_chief = false → gathered = [] →
      synthesize m gathered = .ok none) := by
  have hcams : snapshot_cameras m =
      (List.range 8).map (fun i : ℕ =>
        (⟨m.radius, np_pi / 2,
          m.azimuthal_start + (i : ℚ) *
            ((m.azimuthal_end - m.azimuthal_start) / 7)⟩ : Camera)) := by
    rw [snapshot_cameras, linspace, List.map_map]
    apply List.map_congr_left
    intro i _
    simp only [Function.comp]
    norm_num
  refine ⟨?_, ?_, ?_, ?_, ?_, ?_⟩
  · rw [hcams]
    simp
  · intro c hc
    rw [hcams] at hc
    obtain ⟨i, _, hi⟩ := List.mem_map.mp hc
    rw [← hi]
    exact ⟨rfl, rfl⟩
  · rw [hcams, List.map_map]
    rw [show List.range 8 = [0, 1, 2, 3, 4, 5, 6, 7] from rfl]
    simp only [List.map_cons, List.map_nil, Function.comp, List.cons.injEq,
      and_true]
    push_cast
    repeat' apply And.intro
    all_goals ring
  · rw [snapshot_local_images]
    have hinner : ∀ idx,
        (((snapshot_cameras m).map (fun c => G idx c)).flatten).length = 8 := by
      intro idx
      rw [List.length_flatten, List.map_map]
      have hmc : (snapshot_cameras m).map (List.length ∘ fun c => G idx c) =
          (snapshot_cameras m).map (fun _ => 1) :=
        List.map_congr_left (fun c _ => hG idx c)
      rw [hmc, List.map_const', List.sum_const_nat, hcams]
      simp
    rw [List.length_flatten, List.map_map]
    have hmo : (List.range m.replica_latent_num).map
        (List.length ∘ fun idx =>
          ((snapshot_cameras m).map (fun c => G idx c)).flatten) =
        (List.range m.replica_latent_num).map (fun _ => 8) :=
      List.map_congr_left (fun idx _ => hinner idx)
    rw [hmo, List.map_const', List.sum_const_nat]
    simp
  · intro hchief hlen
    have htl : (gathered.take (m.latent_num * 8)).length =
        m.latent_num * 8 := by
      rw [List.length_take]
      omega
    refine ⟨?_, htl⟩
    simp [synthesize, hchief, htl]
  · intro hchief hemp
    simp [synthesize, hchief, hemp]

/-- Witness for C7 with two latent codes per replica, a one-image generator
and a gathered collection of 16 images on the chief. -/
theorem snapshot_multiview_spec_witness :
    (snapshot_cameras ⟨2, 2, true, 1, 0, 7⟩).length = 8 ∧
      synthesize ⟨2, 2, true, 1, 0, 7⟩ (List.range 16) =
        .ok (some (List.range 16)) := by
  have h := snapshot_multiview_spec ⟨2, 2, true, 1, 0, 7⟩
    (fun idx _ => [idx]) (List.range 16) (fun _ _ => rfl)
  refine ⟨h.1, ?_⟩
  have h5 := h.2.2.2.2.1 rfl (by simp)
  rw [h5.1, List.take_of_length_le (by simp)]

/-- The keys of the `g_loss_kwargs` dictionary built by
`StyleSDFConfig.parse_options` (src/configs/stylesdf_config.py:373-376). -/
def stylesdf_g_loss_kwargs_keys : List String :=
  ["top_k_interval", "top_v", "eikonal_lambda", "min_surf_lambda"]

/-- The `topk_percent` computation in `PiGANLoss.g_loss`
(src/runners/losses/pigan_loss.py:271-276): it stays `1` unless BOTH
`'topk_interval'` and `'topk_v'` are keys of `g_loss_kwargs`; the decayed
value of the taken branch (a float power expression) is abstracted as
`branch_val`. -/
def topk_percent_of (keys : List String) (branch_val : ℚ) : ℚ :=
  if "topk_interval" ∈ keys ∧ "topk_v" ∈ keys then branch_val else 1

/-- `topk_num = int(topk_percent * runner.batch_size)`
(src/runners/losses/pigan_loss.py:277). -/
def topk_num_of (keys : List String) (branch_val : ℚ) (batch_size : ℕ) : ℤ :=
  pyInt (topk_percent_of keys branch_val * batch_size)

/-- `torch.topk(scores, k, dim=0).values`: the `k` largest entries, in
descending order. -/
def torch_topk (xs : List ℚ) (k : ℕ) : List ℚ :=
  (xs.mergeSort (fun a b => decide (b ≤ a))).take k

/-- C8: under the generator-loss keyword arguments produced by
`StyleSDFConfig.parse_options` (whose keys are `'top_k_interval'` and
`'top_v'`), the membership test in `PiGANLoss.g_loss` for `'topk_interval'`
and `'topk_v'` never succeeds, so `topk_percent` stays `1`, `topk_num` equals
the batch size, and the top-k selection keeps every score of the batch (a
permutation of the scores). -/
theorem stylesdf_topk_inactive (branch_val : ℚ) (batch_size : ℕ)
    (scores : List ℚ) (hlen : scores.length = batch_size) :
    ¬ ("topk_interval" ∈ stylesdf_g_loss_kwargs_keys ∧
        "topk_v" ∈ stylesdf_g_loss_kwargs_keys) ∧
      topk_percent_of stylesdf_g_loss_kwargs_keys branch_val = 1 ∧
      topk_num_of stylesdf_g_loss_kwargs_keys branch_val batch_size =
        batch_size ∧
      (torch_topk scores batch_size).Perm scores := by
  have hmem : ¬ ("topk_interval" ∈ stylesdf_g_loss_kwargs_keys ∧
      "topk_v" ∈ stylesdf_g_loss_kwargs_keys) := by decide
  have hpct : topk_percent_of stylesdf_g_loss_kwargs_keys branch_val = 1 := by
    rw [topk_percent_of, if_neg hmem]
  refine ⟨hmem, hpct, ?_, ?_⟩
  · rw [topk_num_of, hpct, one_mul, pyInt,
      if_pos (by positivity : (0 : ℚ) ≤ (batch_size : ℚ))]
    exact_mod_cast Int.floor_natCast batch_size
  · rw [torch_topk, ← hlen, List.take_of_length_le (by simp)]
    exact List.mergeSort_perm scores _

/-- Witness for C8 at scores `[1, 5, 2]` (batch size 3, decayed branch value
`3/5`). -/
theorem stylesdf_topk_inactive_witness :
    topk_num_of stylesdf_g_loss_kwargs_keys (3 / 5) 3 = 3 ∧
      (torch_topk [(1 : ℚ), 5, 2] 3).Perm [1, 5, 2] := by
  have h := stylesdf_topk_inactive (3 / 5) 3 [(1 : ℚ), 5, 2] rfl
  exact ⟨h.2.2.1, h.2.2.2⟩

/-- `KIDMetric._is_better_than` (src/metrics/kid.py:211-215): lower KID is
better; `new < ref` is Python's comparison, with a `None` reference treated
as "no previous best". -/
def kid_is_better_than (self_name metric_name : String) (new : ℚ)
    (ref : Option ℚ) : Option Bool :=
  if metric_name = self_name then
    some (match ref with
      | none => true
      | some r => decide (new < r))
  else none

/-- C9: `_is_better_than` treats lower KID as better: when `metric_name`
equals the metric's own name it returns `True` iff the reference is `None` or
the new value is strictly smaller, and for every other `metric_name` it
returns `None`. -/
theorem kid_is_better_than_spec (self_name metric_name : String) (new : ℚ)
    (ref : Option ℚ) :
    (metric_name = self_name →
      (kid_is_better_than self_name metric_name new ref = some true ↔
        ref = none ∨ ∃ r, ref = some r ∧ new < r)) ∧
    (metric_name ≠ self_name →
      kid_is_better_than self_name metric_name new ref = none) := by
  constructor
  · intro heq
    rw [kid_is_better_than.eq_def, if_pos heq]
    cases ref with
    | none => simp
    | some r =>
      constructor
      · intro h
        simp only [Option.some.injEq] at h
        exact Or.inr ⟨r, rfl, by simpa using h⟩
      · intro h
        rcases h with h | ⟨r2, hr2, hlt⟩
        · cases h
        · cases hr2
          simp [hlt]
  · intro hne
    rw [kid_is_better_than.eq_def, if_neg hne]

/-- Witness for C9: for the KID metric itself, `1 < 2` gives `True`, and a
foreign metric name gives `None`. -/
theorem kid_is_better_than_spec_witness :
    kid_is_better_than "KID" "KID" 1 (some 2) = some true ∧
      kid_is_better_than "KID" "FID" 1 (some 2) = none := by
  constructor
  · exact ((kid_is_better_than_spec "KID" "KID" 1 (some 2)).1 rfl).mpr
      (Or.inr ⟨2, rfl, by norm_num⟩)
  · exact (kid_is_better_than_spec "KID" "FID" 1 (some 2)).2 (by decide)

/-- The effect of `KIDMetric.extract_fake_features` (src/metrics/kid.py:
145-194) on the generator's `training` flag: `G_mode = G.training` is saved,
`G.eval()` switches to evaluation mode for synthesis, and `G.train()` runs
before returning iff `G_mode` was set.  Returns the flag during synthesis and
the flag at return. -/
def extract_fake_features_G_mode (training : Bool) : Bool × Bool :=
  let G_mode := training
  let during := false
  let after := if G_mode then true else during
  (during, after)

/-- The identical save/eval/restore pattern in
`GANSnapshotMultiView.synthesize` (src/metrics/gan_snapshot_multiview.py:
87-143). -/
def snapshot_synthesize_G_mode (training : Bool) : Bool × Bool :=
  let G_mode := training
  let during := false
  let after := if G_mode then true else during
  (during, after)

/-- C10: `extract_fake_features` and `synthesize` leave the generator's
training-mode flag unchanged across the call: each switches the generator to
evaluation mode for synthesis and restores training mode before returning
exactly when the generator was in training mode at entry. -/
theorem generator_mode_restored (b : Bool) :
    extract_fake_features_G_mode b = (false, b) ∧
      snapshot_synthesize_G_mode b = (false, b) := by
  cases b <;> exact ⟨rfl, rfl⟩

end Carver
